import Mathlib

/-!
Verification development for the smartshell command-prediction pipeline.

The Python sources are embedded shallowly:
  src/processor/normalizer.py  -> namespace Normalizer
  src/processor/pipeline.py    -> namespace Pipeline
  src/models/markov.py         -> namespace Markov
  src/engine/cli.py            -> namespace Cli

Python strings are Lean Strings, manipulated through their character
lists; machine integers do not occur.  Fallible operations return
Option or Except.  Floating-point probabilities are represented
exactly in thousandths (the code rounds every probability to three
decimal places, so the thousandths value carries full information).
-/

namespace PyStr

/-- Characters of a string, written once so the remaining definitions
read uniformly. -/
def chars (s : String) : List Char := s.data

/-- Model of Python str.strip on a character list: drop whitespace from
both ends. -/
def stripChars (cs : List Char) : List Char :=
  ((cs.dropWhile Char.isWhitespace).reverse.dropWhile Char.isWhitespace).reverse

/-- Model of Python str.strip. -/
def pyStrip (s : String) : String := String.mk (stripChars s.data)

/-- Accumulating worker for whitespace tokenization.  The accumulator
holds the current word reversed. -/
def splitWsAux : List Char → List Char → List (List Char)
  | [], acc => if acc = [] then [] else [acc.reverse]
  | c :: cs, acc =>
    if c.isWhitespace then
      if acc = [] then splitWsAux cs [] else acc.reverse :: splitWsAux cs []
    else splitWsAux cs (c :: acc)

/-- Model of Python str.split() with no argument: maximal runs of
non-whitespace characters. -/
def pySplit (s : String) : List String := (splitWsAux s.data []).map String.mk

/-- Model of Python pieces.join(sep) (equivalently sep.join(pieces)). -/
def joinSep (sep : String) : List String → String
  | [] => ""
  | [p] => p
  | p :: q :: rest => p ++ sep ++ joinSep sep (q :: rest)

end PyStr

namespace Normalizer

open PyStr

/-- KEEP_ARGS from src/processor/normalizer.py: commands whose second
token is kept. -/
def KEEP_ARGS : List String :=
  ["git", "docker", "systemctl", "service", "apt", "pip", "python3", "python", "sudo"]

/-- STRIP_TO_BASE from src/processor/normalizer.py: commands reduced to
their base token. -/
def STRIP_TO_BASE : List String :=
  ["cd", "ls", "cat", "nano", "vim", "nvim", "code", "rm", "mv", "cp", "mkdir",
   "touch", "chmod", "chown", "find", "grep", "tail", "head", "less", "more"]

/-- BLACKLIST from src/processor/normalizer.py: commands excluded from
training data entirely. -/
def BLACKLIST : List String :=
  ["rm", "dd", "mkfs", "shutdown", "reboot",
   "poweroff", "halt", "mkswap", "fdisk", "parted",
   "history", "clear", "exit", "logout"]

/-- Worker for split_pipeline: Python command.split on the single
character of the pipe; the accumulator holds the current piece
reversed. -/
def splitOnPipeC : List Char → List Char → List (List Char)
  | [], acc => [acc.reverse]
  | c :: cs, acc => if c = '|' then acc.reverse :: splitOnPipeC cs [] else splitOnPipeC cs (c :: acc)

/-- split_pipeline from src/processor/normalizer.py: split on the pipe
character, strip each piece, keep the non-empty ones. -/
def split_pipeline (command : String) : List String :=
  ((splitOnPipeC command.data []).map (fun cs => String.mk (stripChars cs))).filter (· ≠ "")

/-- Match of the separator pattern of split_logicial at the head of the
character list: optional whitespace, then a double ampersand, a double
pipe or a semicolon, then optional whitespace.  Returns the remainder
after the whole match, or none when no separator starts here.  A run of
whitespace can only be part of a match when the operator follows it,
because no operator begins with a whitespace character. -/
def matchSep (cs : List Char) : Option (List Char) :=
  match cs.dropWhile Char.isWhitespace with
  | '&' :: '&' :: rest => some (rest.dropWhile Char.isWhitespace)
  | '|' :: '|' :: rest => some (rest.dropWhile Char.isWhitespace)
  | ';' :: rest => some (rest.dropWhile Char.isWhitespace)
  | _ => none

/-- Scanner for split_logicial.  Walks the characters left to right,
emitting a piece at every leftmost separator match, exactly as the
regular-expression split of the source does.  The fuel argument only
bounds the recursion; every step consumes at least one character, so
fuel equal to the length of the input is always sufficient. -/
def splitLogGo : Nat → List Char → List Char → List (List Char)
  | _, [], acc => [acc.reverse]
  | 0, cs, acc => [acc.reverse ++ cs]
  | fuel + 1, c :: cs, acc =>
    match matchSep (c :: cs) with
    | some rest => acc.reverse :: splitLogGo fuel rest []
    | none => splitLogGo fuel cs (c :: acc)

/-- split_logicial from src/processor/normalizer.py: regular-expression
split on logical operators with surrounding whitespace; empty pieces are
kept, matching re.split. -/
def split_logicial (command : String) : List String :=
  (splitLogGo command.data.length command.data []).map String.mk

/-- Test of the source expression second.startswith a dash, second equal
to a lone dash, or second.startswith a heredoc marker. -/
def isFlagOrHeredoc (second : String) : Bool :=
  match second.data with
  | '-' :: _ => true
  | '<' :: '<' :: _ => true
  | _ => false

/-- normalize from src/processor/normalizer.py, with explicit recursion
fuel.  The source assigns command.strip() and then computes
re.sub of the leading environment-assignment pattern WITHOUT using the
result, so the command is tokenized unchanged; the embedding therefore
has no stripping step for assignments.  Every recursive call receives a
strictly shorter string (a stripped piece of a split that produced at
least two pieces), so fuel exceeding the length of the input never runs
out. -/
def normalizeF : Nat → String → Option String
  | 0, _ => none
  | fuel + 1, raw =>
    let command := pyStrip raw
    if command = "" then none
    else
      match pySplit command with
      | [] => none
      | tok0 :: rest0 =>
        match (if tok0 = "sudo" ∧ rest0 ≠ [] then rest0 else tok0 :: rest0) with
        | [] => none
        | base :: args =>
          if base ∈ BLACKLIST then none
          else if base ∈ STRIP_TO_BASE then some base
          else if base ∈ KEEP_ARGS ∧ args ≠ [] then
            match args with
            | [] => some base
            | second :: _ =>
              if isFlagOrHeredoc second then some base
              else some (base ++ " " ++ second)
          else
            let segs := split_pipeline command
            if 1 < segs.length then
              some (joinSep " | " (((segs.map (normalizeF fuel)).filterMap id).filter (· ≠ "")))
            else
              let segs2 := split_logicial command
              if 1 < segs2.length then
                some (joinSep " ; " (((segs2.map (normalizeF fuel)).filterMap id).filter (· ≠ "")))
              else some base

/-- normalize from src/processor/normalizer.py.  The excluded sentinel
of the source, None, is Option.none here. -/
def normalize (s : String) : Option String := normalizeF (s.data.length + 1) s

/-- Effective base of a command as the source computes it: first
whitespace token of the stripped string, shifted to the second token
when the first is sudo and a second exists; empty when there is no
token.  Used to characterize exactly when normalize returns the
excluded sentinel. -/
def effBaseD (s : String) : String :=
  match pySplit (pyStrip s) with
  | [] => ""
  | tok0 :: rest0 =>
    if tok0 = "sudo" ∧ rest0 ≠ [] then rest0.headD "" else tok0

end Normalizer

namespace Pipeline

/-- Row of the normalized command DataFrame consumed by
build_sequence_pairs (src/processor/pipeline.py): the columns the
function reads.  The command_norm column holds the Normalizer output of
a kept row. -/
structure NormRow where
  command_norm : String
  directory_norm : String
  exit_code : Int
  hour : Nat
  day_of_week : Nat
  session_id : String
deriving DecidableEq

/-- Row of the training-pairs DataFrame produced by
build_sequence_pairs.  The position column of the source is the float
i / len(group); it is represented exactly by its numerator
position_num together with session_length.  prevs lists prev_1
(most recent) first, exactly as the columns prev_1 .. prev_N. -/
structure PairRow where
  target : String
  hour : Nat
  day_of_week : Nat
  directory : String
  session_id : String
  prev_exit_code : Int
  position_num : Nat
  session_length : Nat
  prevs : List String
deriving DecidableEq

/-- Default row used only to totalize list indexing at indices that are
always in range. -/
def dfltNormRow : NormRow := ⟨"", "", 0, 0, 0, ""⟩

/-- One training record of build_sequence_pairs: target fields come
from row i of the session group g, prev_exit_code from row i-1, and
prev_(j+1) from row i-1-j (the context rows iterated most recent
first). -/
def mkPairRow (sid : String) (g : List NormRow) (L i : Nat) : PairRow :=
  let tr := g.getD i dfltNormRow
  { target := tr.command_norm
    hour := tr.hour
    day_of_week := tr.day_of_week
    directory := tr.directory_norm
    session_id := sid
    prev_exit_code := (g.getD (i - 1) dfltNormRow).exit_code
    position_num := i
    session_length := g.length
    prevs := (List.range L).map (fun j => (g.getD (i - 1 - j) dfltNormRow).command_norm) }

/-- Rows of df belonging to one session, in original order; this is the
group that pandas groupby(session_id) hands to the loop body. -/
def sessionGroup (df : List NormRow) (sid : String) : List NormRow :=
  df.filter (fun r => r.session_id = sid)

/-- Lexicographic comparison of character lists by code point, the
order in which pandas sorts string group keys. -/
def lexLt : List Char → List Char → Bool
  | [], [] => false
  | [], _ :: _ => true
  | _ :: _, [] => false
  | a :: as, b :: bs =>
    if a.toNat < b.toNat then true
    else if b.toNat < a.toNat then false
    else lexLt as bs

/-- Code-point lexicographic order on strings. -/
def strLt (a b : String) : Bool := lexLt a.data b.data

/-- Insertion step of the ascending sort of the group keys. -/
def insertAsc (s : String) : List String → List String
  | [] => [s]
  | t :: ts => if strLt s t then s :: t :: ts else t :: insertAsc s ts

/-- Ascending insertion sort of the group keys; pandas groupby sorts
keys ascending by default. -/
def sortAsc : List String → List String
  | [] => []
  | s :: ss => insertAsc s (sortAsc ss)

/-- Distinct session identifiers in first-occurrence order. -/
def dedupKeys (l : List String) : List String :=
  l.foldl (fun acc s => if s ∈ acc then acc else acc ++ [s]) []

/-- Group keys of pandas groupby(session_id): the distinct session
identifiers, sorted ascending. -/
def sessionKeys (df : List NormRow) : List String :=
  sortAsc (dedupKeys (df.map (·.session_id)))

/-- Records contributed by one session: none when the group is shorter
than sequence_length + 1, else one record per position i from
sequence_length to the end of the group. -/
def sessionPairs (df : List NormRow) (L : Nat) (sid : String) : List PairRow :=
  let g := sessionGroup df sid
  if g.length < L + 1 then []
  else (List.range' L (g.length - L)).map (fun i => mkPairRow sid g L i)

/-- build_sequence_pairs from src/processor/pipeline.py. -/
def build_sequence_pairs (df : List NormRow) (L : Nat) : List PairRow :=
  ((sessionKeys df).map (sessionPairs df L)).flatten

end Pipeline

namespace Markov

/-- Counter of next-command occurrences for one context, in insertion
order (a Python dict preserves insertion order, which the stable sort
of predict then relies on). -/
abbrev Counter := List (String × Nat)

/-- Transition table: context tuple to counter, in insertion order.
The source uses a defaultdict of defaultdicts. -/
abbrev Table := List (List String × Counter)

/-- MarkovPredictor state from src/models/markov.py: order, transition
table and the trained flag.  The constructor of the source rejects an
order outside 1 and 2. -/
structure MarkovPredictor where
  order : Nat
  transitions : Table
  trained : Bool
deriving DecidableEq

/-- Plain lookup of a context key; the membership test of the source
(context not in self.transitions) does not insert anything. -/
def tblLookup (t : Table) (k : List String) : Option Counter :=
  match t with
  | [] => none
  | (k', c) :: rest => if k' = k then some c else tblLookup rest k

/-- Indexing a defaultdict: a missing key is inserted at the end with
the default value.  This is the semantics of self.transitions[context]
in the source. -/
def ddGet (t : Table) (k : List String) : Counter × Table :=
  match tblLookup t k with
  | some c => (c, t)
  | none => ([], t ++ [(k, [])])

/-- Increment of one target count inside a counter, inserting a new
target at the end with count 1 (defaultdict(int) semantics). -/
def ctrBump (c : Counter) (tgt : String) : Counter :=
  match c with
  | [] => [(tgt, 1)]
  | (t, n) :: rest => if t = tgt then (t, n + 1) :: rest else (t, n) :: ctrBump rest tgt

/-- The source statement self.transitions[context][target] += 1:
a missing context is appended with an empty counter, then the target
count in it is bumped. -/
def tblBump (t : Table) (k : List String) (tgt : String) : Table :=
  match t with
  | [] => [(k, [(tgt, 1)])]
  | (k', c) :: rest =>
    if k' = k then (k', ctrBump c tgt) :: rest else (k', c) :: tblBump rest k tgt

/-- Row of the training DataFrame as train reads it: the target and
prev_1 columns are required (their absence raises before any row is
processed); prev_2 is optional, none standing for a missing column or a
NaN entry, which pd.isna reports as missing. -/
structure TrainRow where
  target : String
  prev_1 : String
  prev_2 : Option String
deriving DecidableEq

/-- Body of the training loop of src/models/markov.py for one row:
order 1 keys on (prev_1,); otherwise the row is skipped when prev_2 is
missing, else the key is (prev_2, prev_1). -/
def trainStep (order : Nat) (t : Table) (r : TrainRow) : Table :=
  if order = 1 then tblBump t [r.prev_1] r.target
  else
    match r.prev_2 with
    | none => t
    | some p2 => tblBump t [p2, r.prev_1] r.target

/-- train from src/models/markov.py: fold the loop body over the rows,
then set trained.  Counts accumulate across calls. -/
def train (m : MarkovPredictor) (rows : List TrainRow) : MarkovPredictor :=
  { m with transitions := rows.foldl (trainStep m.order) m.transitions, trained := true }

/-- Rows the training loop actually uses (order 2 skips a row whose
prev_2 is missing; order 1 uses every row). -/
def rowUsable (order : Nat) (r : TrainRow) : Bool :=
  if order = 1 then true else r.prev_2.isSome

/-- Number of rows the training loop uses. -/
def trainUsed (order : Nat) (rows : List TrainRow) : Nat :=
  (rows.filter (rowUsable order)).length

/-- Number of rows the training loop skips. -/
def trainSkipped (order : Nat) (rows : List TrainRow) : Nat :=
  (rows.filter (fun r => !rowUsable order r)).length

/-- The two numbers train prints when it finishes: the order (first
line) and the number of unique contexts learned (second line). -/
def trainReport (m : MarkovPredictor) (rows : List TrainRow) : Nat × Nat :=
  ((train m rows).order, (train m rows).transitions.length)

/-- Total transition count stored in a table. -/
def tblTotal (t : Table) : Nat :=
  (t.map (fun kc => ((kc.2.map (·.2)).sum))).sum

/-- Stable descending insertion: the new element passes every earlier
element with a count greater than or equal to its own, so elements with
equal counts keep their insertion order. -/
def insertDesc (x : String × Nat) : Counter → Counter
  | [] => [x]
  | y :: ys => if y.2 < x.2 then x :: y :: ys else y :: insertDesc x ys

/-- Model of Python sorted(counts.items(), key count, reverse) —
a stable sort by count descending over insertion order. -/
def rankDesc (c : Counter) : Counter :=
  c.foldl (fun acc x => insertDesc x acc) []

/-- Probability of the source rounded to three decimal places,
represented in thousandths: round(1000 * count / total) half to even,
the exact-rational reading of Python round(count / total, 3). -/
def round3Milli (count total : Nat) : Nat :=
  let q := 1000 * count / total
  let r := 1000 * count % total
  if total < 2 * r then q + 1
  else if 2 * r < total then q
  else if q % 2 = 0 then q else q + 1

/-- Error raised by predict on an untrained model; the source raises an
exception whose message says the model has not been trained. -/
inductive PredictErr where
  | ModelNotTrained
deriving DecidableEq

/-- predict from src/models/markov.py, with the state threaded
explicitly so that the effect of the defaultdict access is visible:
raise when untrained; empty list when the context key is absent (the
membership test inserts nothing); otherwise index the defaultdict,
rank the candidate counts by the stable descending sort, truncate to
top_n and attach the rounded probabilities count / total. -/
def predictS (m : MarkovPredictor) (context : List String) (top_n : Nat) :
    Except PredictErr (List (String × Nat)) × MarkovPredictor :=
  if m.trained = false then (.error .ModelNotTrained, m)
  else if (tblLookup m.transitions context).isNone then (.ok [], m)
  else
    let (counts, t') := ddGet m.transitions context
    let total := (counts.map (·.2)).sum
    (.ok (((rankDesc counts).take top_n).map (fun p => (p.1, round3Milli p.2 total))),
     { m with transitions := t' })

/-- predict_from_last from src/models/markov.py: an empty result when
fewer commands than the order are supplied, else predict on the last
order commands. -/
def predictFromLastS (m : MarkovPredictor) (last_commands : List String) (top_n : Nat) :
    Except PredictErr (List (String × Nat)) × MarkovPredictor :=
  if last_commands.length < m.order then (.ok [], m)
  else predictS m (last_commands.drop (last_commands.length - m.order)) top_n

/-- Conversion of a training-pairs row to the columns train reads:
prev_1 is the most recent context command, prev_2 the one before it
when the window is at least 2 long (a window of length 1 has no prev_2
column, which row.get reports as missing). -/
def pairToTrainRow (r : Pipeline.PairRow) : TrainRow :=
  ⟨r.target, r.prevs.headD "", r.prevs.get? 1⟩

end Markov

namespace Cli

open PyStr

/-- BLACKLIST from src/engine/cli.py: the commands the service refuses
to suggest.  It carries only the ten destructive entries; history,
clear, exit and logout of the Normalizer set are absent. -/
def BLACKLIST : List String :=
  ["rm", "dd", "mkfs", "shutdown", "reboot",
   "poweroff", "halt", "mkswap", "fdisk", "parted"]

/-- is_safe from src/engine/cli.py.  The source indexes the first
whitespace token of the stripped command; on a whitespace-only string
that indexing raises, which none models. -/
def is_safe (command : String) : Option Bool :=
  match pySplit (pyStrip command) with
  | [] => none
  | b :: _ => some (!(BLACKLIST.contains b))

/-- Prediction record returned by get_prediction: the suggested token,
its probability in thousandths, and the last normalized command. -/
structure Prediction where
  suggested : String
  probMilli : Nat
  last_command : String
deriving DecidableEq

/-- Decision core of display_suggestion from src/engine/cli.py.
The outer none models the crash of is_safe on a token-free suggestion;
some none is a silent exit without a suggestion; some (some pr) means
the suggestion is shown.  The confidence threshold of the source is the
literal 0.30, compared against the probability that predict already
rounded to thousandths. -/
def display_outcome (p : Option Prediction) : Option (Option Prediction) :=
  match p with
  | none => some none
  | some pr =>
    match is_safe pr.suggested with
    | none => none
    | some safe =>
      if safe = false then some none
      else if pr.probMilli < 300 then some none
      else some (some pr)

end Cli

/-- Six-event single-session feed of the concrete training scenario. -/
def df9 : List Pipeline.NormRow :=
  [⟨"git add", "p/q", 0, 10, 1, "s"⟩,
   ⟨"git commit", "p/q", 0, 10, 1, "s"⟩,
   ⟨"git add", "p/q", 0, 10, 1, "s"⟩,
   ⟨"git commit", "p/q", 0, 10, 1, "s"⟩,
   ⟨"git add", "p/q", 0, 10, 1, "s"⟩,
   ⟨"git push", "p/q", 0, 10, 1, "s"⟩]

/-- Six-event two-session interleaved feed: session s1 and session s2
alternate row by row. -/
def df8 : List Pipeline.NormRow :=
  [⟨"a1", "d", 0, 0, 0, "s1"⟩, ⟨"b1", "d", 0, 0, 0, "s2"⟩,
   ⟨"a2", "d", 0, 0, 0, "s1"⟩, ⟨"b2", "d", 0, 0, 0, "s2"⟩,
   ⟨"a3", "d", 0, 0, 0, "s1"⟩, ⟨"b3", "d", 0, 0, 0, "s2"⟩]

/-- The record session s1 contributes to build_sequence_pairs df8 2. -/
def rec8 : Pipeline.PairRow :=
  Pipeline.mkPairRow "s1" (Pipeline.sessionGroup df8 "s1") 2 2

/-- Order-2 training rows of which exactly one lacks the second context
slot. -/
def rows7 : List Markov.TrainRow :=
  [⟨"c", "b", some "a"⟩, ⟨"c", "b", some "a"⟩, ⟨"c", "b", some "a"⟩, ⟨"c", "b", none⟩]

section Sanity

example : Normalizer.normalize "cd /var/log" = some "cd" := by decide
example : Normalizer.normalize "git commit -m x" = some "git commit" := by decide
example : Normalizer.normalize "clear" = none := by decide
example : Normalizer.normalize "sudo rm -rf /" = none := by decide
example : Normalizer.normalize "git add . && git commit -m x" = some "git add" := by decide
example : Normalizer.normalize "cat file | grep foo" = some "cat" := by decide
example : Normalizer.normalize "foo a && bar b" = some "foo ; bar" := by decide
example : Normalizer.normalize "foo a | bar b" = some "foo | bar" := by decide
example : Normalizer.normalize "; rm a" = some "" := by decide
example : Normalizer.normalize "FLASK_ENV=dev python3 app.py" = some "FLASK_ENV=dev" := by decide
example : Normalizer.normalize "sudo sudo update" = some "sudo update" := by decide
example : Normalizer.normalize "sudo update" = some "update" := by decide

example :
    (Pipeline.build_sequence_pairs df9 1).map Markov.pairToTrainRow =
      [⟨"git commit", "git add", none⟩,
       ⟨"git add", "git commit", none⟩,
       ⟨"git commit", "git add", none⟩,
       ⟨"git add", "git commit", none⟩,
       ⟨"git push", "git add", none⟩] := by decide

example :
    (Markov.predictS
        (Markov.train ⟨1, [], false⟩
          ((Pipeline.build_sequence_pairs df9 1).map Markov.pairToTrainRow))
        ["git add"] 3).1
      = .ok [("git commit", 667), ("git push", 333)] := rfl

example :
    Cli.display_outcome (some ⟨"history", 900, "ls"⟩) = some (some ⟨"history", 900, "ls"⟩) := by
  decide

end Sanity

section MarkovLemmas

/-- Bumping one target raises the total count of a counter by one. -/
theorem ctrBump_sum (c : Markov.Counter) (tgt : String) :
    ((Markov.ctrBump c tgt).map (·.2)).sum = ((c.map (·.2)).sum) + 1 := by
  induction c with
  | nil => simp [Markov.ctrBump]
  | cons hd tl ih =>
    obtain ⟨t, n⟩ := hd
    by_cases h : t = tgt
    · simp [Markov.ctrBump, h]; omega
    · simp [Markov.ctrBump, h, ih]; omega

/-- Bumping one transition raises the total count of a table by one. -/
theorem tblBump_total (t : Markov.Table) (k : List String) (tgt : String) :
    Markov.tblTotal (Markov.tblBump t k tgt) = Markov.tblTotal t + 1 := by
  induction t with
  | nil => simp [Markov.tblBump, Markov.tblTotal]
  | cons hd tl ih =>
    obtain ⟨k', c⟩ := hd
    by_cases h : k' = k
    · simp [Markov.tblBump, h, Markov.tblTotal, ctrBump_sum]; omega
    · simp [Markov.tblBump, h, Markov.tblTotal] at ih ⊢; omega

/-- The order-2 training fold adds exactly one transition per row whose
prev_2 is present and leaves skipped rows without any footprint. -/
theorem foldl_trainStep_total (rows : List Markov.TrainRow) :
    ∀ t : Markov.Table,
      Markov.tblTotal (rows.foldl (Markov.trainStep 2) t) =
        Markov.tblTotal t + Markov.trainUsed 2 rows := by
  induction rows with
  | nil => intro t; simp [Markov.trainUsed]
  | cons r rs ih =>
    intro t
    rw [List.foldl_cons, ih]
    unfold Markov.trainStep Markov.trainUsed Markov.rowUsable
    cases h : r.prev_2 with
    | none => simp [h, Markov.trainUsed, Markov.rowUsable]
    | some p2 => simp [h, tblBump_total, Markov.trainUsed, Markov.rowUsable]; omega

/-- Element membership after a stable descending insertion. -/
theorem mem_insertDesc {x z : String × Nat} {l : Markov.Counter}
    (h : z ∈ Markov.insertDesc x l) : z = x ∨ z ∈ l := by
  induction l with
  | nil => simpa [Markov.insertDesc] using h
  | cons y ys ih =>
    by_cases hc : y.2 < x.2
    · simp only [Markov.insertDesc, if_pos hc, List.mem_cons] at h
      rcases h with h | h | h
      · left; exact h
      · right; simp [h]
      · right; simp [h]
    · simp only [Markov.insertDesc, if_neg hc, List.mem_cons] at h
      rcases h with h | h
      · right; simp [h]
      · rcases ih h with h | h
        · left; exact h
        · right; simp [h]

/-- A stable descending insertion keeps the list sorted by count
descending. -/
theorem pairwise_insertDesc (x : String × Nat) (l : Markov.Counter)
    (h : l.Pairwise (fun a b => b.2 ≤ a.2)) :
    (Markov.insertDesc x l).Pairwise (fun a b => b.2 ≤ a.2) := by
  induction l with
  | nil => simp [Markov.insertDesc]
  | cons y ys ih =>
    rw [List.pairwise_cons] at h
    obtain ⟨hy, hys⟩ := h
    by_cases hc : y.2 < x.2
    · rw [Markov.insertDesc, if_pos hc, List.pairwise_cons]
      refine ⟨?_, List.pairwise_cons.mpr ⟨hy, hys⟩⟩
      intro z hz
      rcases List.mem_cons.mp hz with rfl | hz
      · omega
      · exact le_trans (hy z hz) (le_of_lt hc)
    · rw [Markov.insertDesc, if_neg hc, List.pairwise_cons]
      refine ⟨?_, ih hys⟩
      intro z hz
      rcases mem_insertDesc hz with rfl | hz
      · omega
      · exact hy z hz

/-- The candidate ranking of predict is sorted by count descending. -/
theorem rankDesc_sorted (c : Markov.Counter) :
    (Markov.rankDesc c).Pairwise (fun a b => b.2 ≤ a.2) := by
  have key : ∀ (l acc : Markov.Counter), acc.Pairwise (fun a b => b.2 ≤ a.2) →
      (l.foldl (fun acc x => Markov.insertDesc x acc) acc).Pairwise (fun a b => b.2 ≤ a.2) := by
    intro l
    induction l with
    | nil => intro acc h; simpa using h
    | cons x xs ih => intro acc h; exact ih _ (pairwise_insertDesc x acc h)
  exact key c [] (by simp)

/-- In a descending-sorted list headed by an element of count below k,
no element has count k. -/
theorem filter_eq_nil_of_lt (k : Nat) (y : String × Nat) (ys : Markov.Counter)
    (hs : (y :: ys).Pairwise (fun a b => b.2 ≤ a.2)) (hy : y.2 < k) :
    (y :: ys).filter (fun p => p.2 = k) = [] := by
  rw [List.pairwise_cons] at hs
  rw [List.filter_eq_nil_iff]
  intro z hz
  rcases List.mem_cons.mp hz with rfl | hz
  · simp; omega
  · have := hs.1 z hz; simp; omega

/-- Inserting a later element never moves it ahead of an equal-count
earlier element: the filter at each count value grows at the tail. -/
theorem filter_insertDesc (x : String × Nat) (l : Markov.Counter) (k : Nat)
    (hs : l.Pairwise (fun a b => b.2 ≤ a.2)) :
    (Markov.insertDesc x l).filter (fun p => p.2 = k) =
      if x.2 = k then l.filter (fun p => p.2 = k) ++ [x]
      else l.filter (fun p => p.2 = k) := by
  induction l with
  | nil => by_cases hx : x.2 = k <;> simp [Markov.insertDesc, hx]
  | cons y ys ih =>
    have hys : ys.Pairwise (fun a b => b.2 ≤ a.2) := (List.pairwise_cons.mp hs).2
    by_cases hc : y.2 < x.2
    · rw [Markov.insertDesc, if_pos hc]
      by_cases hx : x.2 = k
      · have hnil : (y :: ys).filter (fun p => p.2 = k) = [] :=
          filter_eq_nil_of_lt k y ys hs (by omega)
        rw [if_pos hx, hnil]
        rw [List.filter_cons_of_pos (by simp [hx]), hnil]
        simp
      · rw [if_neg hx]
        rw [List.filter_cons_of_neg (by simp [hx])]
    · rw [Markov.insertDesc, if_neg hc]
      by_cases hyk : y.2 = k
      · rw [List.filter_cons_of_pos (by simp [hyk]), List.filter_cons_of_pos (by simp [hyk]),
          ih hys]
        by_cases hx : x.2 = k <;> simp [hx]
      · rw [List.filter_cons_of_neg (by simp [hyk]), List.filter_cons_of_neg (by simp [hyk]),
          ih hys]

/-- Stability of the ranking: for every count value, the candidates of
that count appear in their insertion order (first inserted wins ties). -/
theorem rankDesc_stable (c : Markov.Counter) (k : Nat) :
    (Markov.rankDesc c).filter (fun p => p.2 = k) = c.filter (fun p => p.2 = k) := by
  have key : ∀ (l acc : Markov.Counter), acc.Pairwise (fun a b => b.2 ≤ a.2) →
      (l.foldl (fun acc x => Markov.insertDesc x acc) acc).filter (fun p => p.2 = k) =
        acc.filter (fun p => p.2 = k) ++ l.filter (fun p => p.2 = k) := by
    intro l
    induction l with
    | nil => intro acc h; simp
    | cons x xs ih =>
      intro acc h
      rw [List.foldl_cons, ih _ (pairwise_insertDesc x acc h), filter_insertDesc x acc k h]
      by_cases hx : x.2 = k
      · rw [if_pos hx, List.filter_cons_of_pos (by simp [hx])]
        simp
      · rw [if_neg hx, List.filter_cons_of_neg (by simp [hx])]
  simpa using key c [] (by simp)

end MarkovLemmas

/-- C1 counterexample: on both spec examples the code does not split,
because the keep-args rule (git) and the strip-to-base rule (cat) fire
before any pipe or logical splitting. -/
theorem c1_counterexample :
    Normalizer.normalize "git add . && git commit -m x" ≠ some "git add ; git commit" ∧
    Normalizer.normalize "cat file | grep foo" ≠ some "cat | grep" := by decide

/-- C1 amended: the blacklist, strip-to-base and keep-args rules run
before pipe or logical splitting, so the spec inputs normalize to
git add and cat respectively; recursive splitting with the documented
joins does apply when the base is in none of those sets. -/
theorem c1_amended :
    Normalizer.normalize "git add . && git commit -m x" = some "git add" ∧
    Normalizer.normalize "cat file | grep foo" = some "cat" ∧
    Normalizer.normalize "foo a && bar b" = some "foo ; bar" ∧
    Normalizer.normalize "foo a | bar b" = some "foo | bar" := by decide

/-- C3: the source computes the substitution that would strip the
leading environment assignment but discards its result, so the
assignment token itself becomes the base, contradicting the comment in
the source and the spec. -/
theorem c3_env_assignment_kept :
    Normalizer.normalize "FLASK_ENV=dev python3 app.py" = some "FLASK_ENV=dev" ∧
    Normalizer.normalize "python3 app.py" = some "python3 app.py" ∧
    Normalizer.normalize "FLASK_ENV=dev python3 app.py" ≠
      Normalizer.normalize "python3 app.py" := by decide

/-- C6: predict raises the not-trained error exactly when the trained
flag is down, and on a trained model an absent context key yields an
empty list rather than an error. -/
theorem c6_not_trained_vs_unseen (m : Markov.MarkovPredictor) (ctx : List String) (n : Nat) :
    ((Markov.predictS m ctx n).1 = .error .ModelNotTrained ↔ m.trained = false) ∧
    (m.trained = true → Markov.tblLookup m.transitions ctx = none →
      (Markov.predictS m ctx n).1 = .ok []) := by
  constructor
  · constructor
    · intro h
      by_cases ht : m.trained = false
      · exact ht
      · exfalso
        unfold Markov.predictS at h
        rw [if_neg ht] at h
        by_cases hl : (Markov.tblLookup m.transitions ctx).isNone
        · rw [if_pos hl] at h; simp at h
        · rw [if_neg hl] at h; simp at h
    · intro ht
      unfold Markov.predictS
      rw [if_pos ht]
  · intro ht hl
    unfold Markov.predictS
    rw [if_neg (by simp [ht]), if_pos (by simp [hl])]

/-- C6 witness: an untrained predictor errors; a trained one with an
unseen context returns the empty list. -/
theorem c6_witness :
    ((Markov.predictS ⟨1, [], false⟩ ["a"] 3).1 = .error .ModelNotTrained ↔
      (Markov.MarkovPredictor.mk 1 [] false).trained = false) ∧
    (Markov.predictS ⟨1, [(["b"], [("c", 1)])], true⟩ ["a"] 3).1 = .ok [] :=
  ⟨(c6_not_trained_vs_unseen ⟨1, [], false⟩ ["a"] 3).1,
   (c6_not_trained_vs_unseen ⟨1, [(["b"], [("c", 1)])], true⟩ ["a"] 3).2 rfl rfl⟩

/-- C10: predict and predict_from_last leave the whole predictor state
unchanged, including the key set of the transition table; the source
guards the defaultdict access with a membership test, so the access
never inserts the default. -/
theorem c10_predict_pure (m : Markov.MarkovPredictor) (ctx cmds : List String) (n : Nat) :
    (Markov.predictS m ctx n).2 = m ∧ (Markov.predictFromLastS m cmds n).2 = m := by
  have hp : ∀ c : List String, (Markov.predictS m c n).2 = m := by
    intro c
    unfold Markov.predictS
    by_cases ht : m.trained = false
    · rw [if_pos ht]
    · rw [if_neg ht]
      by_cases hl : (Markov.tblLookup m.transitions c).isNone
      · rw [if_pos hl]
      · rw [if_neg hl]
        cases hlook : Markov.tblLookup m.transitions c with
        | none => rw [hlook] at hl; simp at hl
        | some cnt => simp [Markov.ddGet, hlook]
  refine ⟨hp ctx, ?_⟩
  unfold Markov.predictFromLastS
  by_cases hlen : cmds.length < m.order
  · rw [if_pos hlen]
  · rw [if_neg hlen]; exact hp _

/-- C7 counterexample: train on three usable rows and one row lacking
prev_2 reports the model order and the unique-context count, a pair in
which the number of rows used does not even occur, so the counts of
rows used versus skipped are not what is reported. -/
theorem c7_counterexample :
    Markov.trainUsed 2 rows7 = 3 ∧ Markov.trainSkipped 2 rows7 = 1 ∧
    Markov.trainReport ⟨2, [], false⟩ rows7 = (2, 1) ∧
    Markov.trainUsed 2 rows7 ∉
      [(Markov.trainReport ⟨2, [], false⟩ rows7).1,
       (Markov.trainReport ⟨2, [], false⟩ rows7).2] := by decide

/-- C7 amended: order-2 training skips exactly the rows lacking prev_2,
never aborts, proceeds over the remaining rows (adding one transition
per usable row) and sets the trained flag; the printed report carries
the order and the unique-context count rather than used and skipped row
counts. -/
theorem c7_amended (m : Markov.MarkovPredictor) (rows : List Markov.TrainRow)
    (h : m.order = 2) :
    (Markov.train m rows).trained = true ∧
    Markov.tblTotal (Markov.train m rows).transitions =
      Markov.tblTotal m.transitions + Markov.trainUsed 2 rows := by
  refine ⟨rfl, ?_⟩
  show Markov.tblTotal (rows.foldl (Markov.trainStep m.order) m.transitions) = _
  rw [h, foldl_trainStep_total]

/-- C7 witness: the amended statement evaluated on the concrete
four-row input. -/
theorem c7_witness :
    (Markov.train ⟨2, [], false⟩ rows7).trained = true ∧
    Markov.tblTotal (Markov.train ⟨2, [], false⟩ rows7).transitions =
      Markov.tblTotal (Markov.MarkovPredictor.mk 2 [] false).transitions +
        Markov.trainUsed 2 rows7 :=
  c7_amended ⟨2, [], false⟩ rows7 rfl

/-- C2 counterexample: a suggestion whose base command is history — a
member of the Normalizer exclusion set — passes the service gate and is
shown, because the service blacklist lacks the four non-destructive
entries. -/
theorem c2_counterexample :
    Cli.display_outcome (some ⟨"history", 900, "ls"⟩) = some (some ⟨"history", 900, "ls"⟩) ∧
    "history" ∈ Normalizer.BLACKLIST ∧ "history" ∉ Cli.BLACKLIST := by decide

/-- C2 amended: the service shows a suggestion only when the base
command of the suggested token is outside the ten-entry destructive
blacklist of the CLI (not the fourteen-entry Normalizer set) and the
probability is at least 0.30. -/
theorem c2_amended (p : Option Cli.Prediction) (pr : Cli.Prediction)
    (h : Cli.display_outcome p = some (some pr)) :
    p = some pr ∧
    (∀ b bs, PyStr.pySplit (PyStr.pyStrip pr.suggested) = b :: bs → b ∉ Cli.BLACKLIST) ∧
    300 ≤ pr.probMilli := by
  cases p with
  | none => simp [Cli.display_outcome] at h
  | some q =>
    simp only [Cli.display_outcome] at h
    cases hs : Cli.is_safe q.suggested with
    | none => rw [hs] at h; simp at h
    | some safe =>
      rw [hs] at h
      dsimp only at h
      by_cases hsafe : safe = false
      · rw [if_pos hsafe] at h; simp at h
      · rw [if_neg hsafe] at h
        by_cases hprob : q.probMilli < 300
        · rw [if_pos hprob] at h; simp at h
        · rw [if_neg hprob] at h
          have hq : q = pr := by simpa using h
          subst hq
          refine ⟨rfl, ?_, by omega⟩
          intro b bs hsplit
          unfold Cli.is_safe at hs
          rw [hsplit] at hs
          have : (!(Cli.BLACKLIST.contains b)) = safe := by simpa using hs
          intro hmem
          rw [← this] at hsafe
          simp [hmem] at hsafe

/-- C2 witness: a confident, safe suggestion is shown, and the amended
gates hold of it. -/
theorem c2_witness :
    (some (Cli.Prediction.mk "git add" 667 "x") = some ⟨"git add", 667, "x"⟩) ∧
    (∀ b bs, PyStr.pySplit (PyStr.pyStrip (Cli.Prediction.mk "git add" 667 "x").suggested)
        = b :: bs → b ∉ Cli.BLACKLIST) ∧
    300 ≤ (Cli.Prediction.mk "git add" 667 "x").probMilli :=
  c2_amended (some ⟨"git add", 667, "x"⟩) ⟨"git add", 667, "x"⟩ (by decide)

/-- C9: the concrete order-1 scenario of the spec holds exactly, the
candidate ranking is sorted by count descending, ties keep insertion
order (first inserted wins), and the probabilities are the counts over
the key total rounded to three decimals (667 and 333 thousandths). -/
theorem c9_scenario :
    (Markov.predictS
        (Markov.train ⟨1, [], false⟩
          ((Pipeline.build_sequence_pairs df9 1).map Markov.pairToTrainRow))
        ["git add"] 3).1
      = .ok [("git commit", 667), ("git push", 333)] ∧
    (∀ c : Markov.Counter, (Markov.rankDesc c).Pairwise (fun a b => b.2 ≤ a.2)) ∧
    (∀ (c : Markov.Counter) (k : Nat),
      (Markov.rankDesc c).filter (fun p => p.2 = k) = c.filter (fun p => p.2 = k)) ∧
    Markov.round3Milli 2 3 = 667 ∧ Markov.round3Milli 1 3 = 333 :=
  ⟨rfl, rankDesc_sorted, rankDesc_stable, rfl, rfl⟩

section StringLemmas

open PyStr

/-- Whitespace tokenization with a pending word never returns the empty
list. -/
theorem splitWsAux_ne_nil (cs : List Char) : ∀ acc : List Char, acc ≠ [] →
    splitWsAux cs acc ≠ [] := by
  induction cs with
  | nil => intro acc h; simp [splitWsAux, h]
  | cons c cs ih =>
    intro acc h
    by_cases hws : c.isWhitespace = true
    · simp only [splitWsAux, hws, if_true, if_neg h]
      simp
    · simp only [splitWsAux, hws, if_false, Bool.false_eq_true]
      exact ih (c :: acc) (by simp)

/-- A character list containing a non-whitespace character tokenizes to
at least one word. -/
theorem splitWsAux_ne_of_exists (cs : List Char)
    (h : ∃ c ∈ cs, c.isWhitespace = false) : splitWsAux cs [] ≠ [] := by
  induction cs with
  | nil => simp at h
  | cons c cs ih =>
    by_cases hws : c.isWhitespace = true
    · simp only [splitWsAux, hws, if_true, if_pos rfl]
      refine ih ?_
      obtain ⟨d, hd, hdw⟩ := h
      rcases List.mem_cons.mp hd with rfl | hd
      · rw [hws] at hdw; cases hdw
      · exact ⟨d, hd, hdw⟩
    · simp only [splitWsAux, hws, if_false, Bool.false_eq_true]
      exact splitWsAux_ne_nil cs [c] (by simp)

/-- The head surviving a dropWhile fails the predicate. -/
theorem dropWhile_head_false {p : Char → Bool} {l : List Char} {c : Char} {rest : List Char}
    (h : l.dropWhile p = c :: rest) : p c = false := by
  induction l with
  | nil => simp at h
  | cons a l ih =>
    rw [List.dropWhile_cons] at h
    by_cases hp : p a = true
    · rw [if_pos hp] at h; exact ih h
    · rw [if_neg hp] at h
      obtain ⟨rfl, -⟩ := List.cons.injEq .. ▸ h
      injection h with h1 h2
      rw [← h1]
      exact Bool.eq_false_iff.mpr hp

/-- A non-empty stripped list contains a non-whitespace character. -/
theorem exists_nonws_of_stripChars (cs : List Char) (h : stripChars cs ≠ []) :
    ∃ c ∈ stripChars cs, c.isWhitespace = false := by
  unfold stripChars at h ⊢
  cases hb : (cs.dropWhile Char.isWhitespace).reverse.dropWhile Char.isWhitespace with
  | nil => rw [hb] at h; simp at h
  | cons b br =>
    refine ⟨b, ?_, dropWhile_head_false hb⟩
    simp [hb]

/-- Strings are equal exactly when their character lists are. -/
theorem string_mk_eq_empty (l : List Char) : String.mk l = "" ↔ l = [] := by
  constructor
  · intro h
    have h2 : (String.mk l).data = ("" : String).data := congrArg String.data h
    simpa using h2
  · intro h; rw [h]

/-- A stripped command that is not the empty string tokenizes to at
least one word. -/
theorem pySplit_pyStrip_ne_nil (s : String) (h : pyStrip s ≠ "") :
    pySplit (pyStrip s) ≠ [] := by
  unfold pySplit
  intro hc
  have hdata : (pyStrip s).data = stripChars s.data := rfl
  rw [List.map_eq_nil_iff] at hc
  rw [hdata] at hc
  have hne : stripChars s.data ≠ [] := by
    intro hnil
    exact h (by unfold pyStrip; rw [hnil])
  exact splitWsAux_ne_of_exists _ (exists_nonws_of_stripChars _ hne) hc

end StringLemmas

/-- After the blacklist check on an effective base, every remaining
branch of normalize produces a some result, so the whole tail is the
excluded sentinel exactly when the base is blacklisted. -/
theorem normalizeF_branch_iff (fuel : Nat) (command base : String) (args : List String) :
    ((if base ∈ Normalizer.BLACKLIST then none
      else if base ∈ Normalizer.STRIP_TO_BASE then some base
      else if base ∈ Normalizer.KEEP_ARGS ∧ args ≠ [] then
        match args with
        | [] => some base
        | second :: _ =>
          if Normalizer.isFlagOrHeredoc second then some base
          else some (base ++ " " ++ second)
      else
        if 1 < (Normalizer.split_pipeline command).length then
          some (PyStr.joinSep " | "
            ((((Normalizer.split_pipeline command).map (Normalizer.normalizeF fuel)).filterMap
              id).filter (· ≠ "")))
        else
          if 1 < (Normalizer.split_logicial command).length then
            some (PyStr.joinSep " ; "
              ((((Normalizer.split_logicial command).map (Normalizer.normalizeF fuel)).filterMap
                id).filter (· ≠ "")))
          else some base) = none) ↔ base ∈ Normalizer.BLACKLIST := by
  constructor
  · intro h
    by_contra hb
    rw [if_neg hb] at h
    split at h
    · simp at h
    · split at h
      · split at h
        · simp at h
        · split at h <;> simp at h
      · split at h
        · simp at h
        · split at h <;> simp at h
  · intro hb; rw [if_pos hb]

/-- C4 counterexample: a compound command all of whose segments are
excluded normalizes to the empty string, not to the excluded sentinel
(None), so the result is neither a non-empty token nor excluded. -/
theorem c4_counterexample :
    Normalizer.normalize "; rm a" = some "" ∧
    Normalizer.normalize "rm a" = none ∧
    Normalizer.normalize "" = none := by decide

/-- C4 amended: normalize is total and returns the excluded sentinel
exactly for whitespace-only input or a blacklisted effective base; on a
compound command whose segments all normalize to excluded or empty it
returns the empty string (falsy downstream) rather than the sentinel. -/
theorem c4_amended (s : String) :
    Normalizer.normalize s = none ↔
      PyStr.pyStrip s = "" ∨ Normalizer.effBaseD s ∈ Normalizer.BLACKLIST := by
  unfold Normalizer.normalize
  simp only [Normalizer.normalizeF]
  by_cases hstrip : PyStr.pyStrip s = ""
  · simp [hstrip, Normalizer.effBaseD]
  · rw [if_neg hstrip]
    unfold Normalizer.effBaseD
    cases hts : PyStr.pySplit (PyStr.pyStrip s) with
    | nil => exact absurd hts (pySplit_pyStrip_ne_nil s hstrip)
    | cons tok0 rest0 =>
      dsimp only
      cases rest0 with
      | nil =>
        rw [if_neg (by simp), if_neg (by simp)]
        dsimp only
        rw [normalizeF_branch_iff]
        simp [hstrip]
      | cons r rs =>
        by_cases hs0 : tok0 = "sudo"
        · rw [if_pos ⟨hs0, by simp⟩, if_pos ⟨hs0, by simp⟩]
          dsimp only
          rw [normalizeF_branch_iff]
          simp [hstrip]
        · rw [if_neg (by simp [hs0]), if_neg (by simp [hs0])]
          dsimp only
          rw [normalizeF_branch_iff]
          simp [hstrip]

/-- The reversed prev window of a training record together with its
target is the contiguous slice of the session group from position
i - L to position i. -/
theorem window_take_drop (g : List Pipeline.NormRow) :
    ∀ (L i : Nat), L ≤ i → i < g.length →
      ((List.range L).map (fun j => g.getD (i - 1 - j) Pipeline.dfltNormRow)).reverse ++
          [g.getD i Pipeline.dfltNormRow] =
        (g.drop (i - L)).take (L + 1) := by
  intro L
  induction L with
  | zero =>
    intro i hLi hig
    rw [List.range_zero, List.map_nil, List.reverse_nil, List.nil_append, Nat.sub_zero,
      List.drop_eq_getElem_cons hig, List.take_succ_cons, List.take_zero,
      List.getD_eq_getElem _ _ hig]
  | succ L ih =>
    intro i hLi hig
    have hdrop : i - (L + 1) < g.length := by omega
    rw [List.range_succ, List.map_append, List.reverse_append]
    simp only [List.map_cons, List.map_nil, List.reverse_cons, List.reverse_nil,
      List.nil_append, List.singleton_append]
    rw [List.cons_append, ih i (by omega) hig, List.drop_eq_getElem_cons hdrop,
      List.take_succ_cons]
    have h1 : i - (L + 1) + 1 = i - L := by omega
    have h2 : i - 1 - L = i - (L + 1) := by omega
    rw [h1, h2, List.getD_eq_getElem _ _ hdrop]

/-- C8: every record of build_sequence_pairs draws its target and its
whole context window from one contiguous slice of the rows of its own
session, so no context ever crosses a session boundary. -/
theorem c8_session_windows (df : List Pipeline.NormRow) (L : Nat) (rec : Pipeline.PairRow)
    (hm : rec ∈ Pipeline.build_sequence_pairs df L) :
    ∃ i, L ≤ i ∧ i < (Pipeline.sessionGroup df rec.session_id).length ∧
      rec.session_length = (Pipeline.sessionGroup df rec.session_id).length ∧
      rec.prevs.reverse ++ [rec.target] =
        (((Pipeline.sessionGroup df rec.session_id).map (·.command_norm)).drop (i - L)).take
          (L + 1) := by
  unfold Pipeline.build_sequence_pairs at hm
  rw [List.mem_flatten] at hm
  obtain ⟨l, hl, hrl⟩ := hm
  rw [List.mem_map] at hl
  obtain ⟨sid, hsid, rfl⟩ := hl
  unfold Pipeline.sessionPairs at hrl
  by_cases hlen : (Pipeline.sessionGroup df sid).length < L + 1
  · rw [if_pos hlen] at hrl; simp at hrl
  · rw [if_neg hlen] at hrl
    rw [List.mem_map] at hrl
    obtain ⟨i, hi, hrec⟩ := hrl
    rw [List.mem_range'_1] at hi
    have hiL : L ≤ i := hi.1
    have hig : i < (Pipeline.sessionGroup df sid).length := by omega
    subst hrec
    simp only [Pipeline.mkPairRow]
    refine ⟨i, hiL, hig, by trivial, ?_⟩
    rw [show (fun j => ((Pipeline.sessionGroup df sid).getD (i - 1 - j)
          Pipeline.dfltNormRow).command_norm) =
        (fun r : Pipeline.NormRow => r.command_norm) ∘
          (fun j => (Pipeline.sessionGroup df sid).getD (i - 1 - j) Pipeline.dfltNormRow)
        from rfl]
    rw [← List.map_map, ← List.map_reverse,
      show [((Pipeline.sessionGroup df sid).getD i Pipeline.dfltNormRow).command_norm] =
        List.map (fun r : Pipeline.NormRow => r.command_norm)
          [(Pipeline.sessionGroup df sid).getD i Pipeline.dfltNormRow] from rfl,
      ← List.map_append]
    rw [window_take_drop (Pipeline.sessionGroup df sid) L i hiL hig]
    rw [List.map_take, List.map_drop]

/-- C8 witness: on the interleaved two-session feed, the record of
session s1 has its window drawn contiguously from session s1 alone. -/
theorem c8_witness :
    ∃ i, 2 ≤ i ∧ i < (Pipeline.sessionGroup df8 rec8.session_id).length ∧
      rec8.session_length = (Pipeline.sessionGroup df8 rec8.session_id).length ∧
      rec8.prevs.reverse ++ [rec8.target] =
        (((Pipeline.sessionGroup df8 rec8.session_id).map (·.command_norm)).drop (i - 2)).take
          (2 + 1) :=
  c8_session_windows df8 2 rec8 (by decide)

/-- C4 witness: the characterization evaluated at a blacklisted
sudo-wrapped command. -/
theorem c4_witness :
    Normalizer.normalize "sudo rm -rf /" = none ↔
      PyStr.pyStrip "sudo rm -rf /" = "" ∨
        Normalizer.effBaseD "sudo rm -rf /" ∈ Normalizer.BLACKLIST :=
  c4_amended "sudo rm -rf /"

section TokenLemmas

open PyStr

/-- Every word produced by whitespace tokenization is non-empty and
whitespace-free. -/
theorem splitWsAux_mem (cs : List Char) : ∀ acc : List Char,
    (∀ c ∈ acc, c.isWhitespace = false) →
    ∀ w ∈ splitWsAux cs acc, w ≠ [] ∧ ∀ c ∈ w, c.isWhitespace = false := by
  induction cs with
  | nil =>
    intro acc hacc w hw
    simp only [splitWsAux] at hw
    by_cases h : acc = []
    · rw [if_pos h] at hw; simp at hw
    · rw [if_neg h] at hw
      simp only [List.mem_singleton] at hw
      subst hw
      refine ⟨by simpa using h, ?_⟩
      intro c hc
      exact hacc c (List.mem_reverse.mp hc)
  | cons c cs ih =>
    intro acc hacc w hw
    simp only [splitWsAux] at hw
    by_cases hws : c.isWhitespace = true
    · rw [if_pos hws] at hw
      by_cases h : acc = []
      · rw [if_pos h] at hw
        exact ih [] (by simp) w hw
      · rw [if_neg h] at hw
        rcases List.mem_cons.mp hw with rfl | hw
        · exact ⟨by simpa using h, fun d hd => hacc d (List.mem_reverse.mp hd)⟩
        · exact ih [] (by simp) w hw
    · rw [if_neg hws] at hw
      refine ih (c :: acc) ?_ w hw
      intro d hd
      rcases List.mem_cons.mp hd with rfl | hd
      · exact Bool.eq_false_iff.mpr hws
      · exact hacc d hd

/-- Tokens of the Python whitespace split are non-empty and contain no
whitespace. -/
theorem pySplit_token_props (s w : String) (hw : w ∈ pySplit s) :
    w.data ≠ [] ∧ ∀ c ∈ w.data, c.isWhitespace = false := by
  unfold pySplit at hw
  rw [List.mem_map] at hw
  obtain ⟨wc, hwc, rfl⟩ := hw
  exact splitWsAux_mem s.data [] (by simp) wc hwc

/-- Whitespace tokenization of an entirely whitespace-free list yields
the pending accumulator extended with the rest. -/
theorem splitWsAux_all_nows (cs : List Char) : ∀ acc : List Char,
    (∀ c ∈ cs, c.isWhitespace = false) → (acc ≠ [] ∨ cs ≠ []) →
    splitWsAux cs acc = [acc.reverse ++ cs] := by
  induction cs with
  | nil =>
    intro acc h hne
    rcases hne with hne | hne
    · simp [splitWsAux, hne]
    · simp at hne
  | cons c cs ih =>
    intro acc h hne
    have hc : c.isWhitespace = false := h c (by simp)
    simp only [splitWsAux]
    rw [if_neg (by simp [hc])]
    rw [ih (c :: acc) (fun d hd => h d (List.mem_cons_of_mem c hd)) (Or.inl (by simp))]
    rw [List.reverse_cons, List.append_assoc, List.singleton_append]

/-- A single whitespace-free word tokenizes to itself alone. -/
theorem pySplit_single (t : String) (hne : t.data ≠ [])
    (hws : ∀ c ∈ t.data, c.isWhitespace = false) :
    pySplit t = [t] := by
  unfold pySplit
  rw [splitWsAux_all_nows t.data [] hws (Or.inr hne)]
  rw [List.reverse_nil, List.nil_append, List.map_cons, List.map_nil]

/-- Tokenization walks through a whitespace-free prefix, accumulating
it in reverse. -/
theorem splitWsAux_append_nows (bs : List Char) : ∀ (rest acc : List Char),
    (∀ c ∈ bs, c.isWhitespace = false) →
    splitWsAux (bs ++ rest) acc = splitWsAux rest (bs.reverse ++ acc) := by
  induction bs with
  | nil => intro rest acc h; simp
  | cons b bs ih =>
    intro rest acc h
    have hb : b.isWhitespace = false := h b (by simp)
    rw [List.cons_append]
    simp only [splitWsAux]
    rw [if_neg (by simp [hb])]
    rw [ih rest (b :: acc) (fun d hd => h d (List.mem_cons_of_mem b hd))]
    rw [List.reverse_cons, List.append_assoc, List.singleton_append]

/-- Two whitespace-free words separated by one space tokenize to the
pair of words. -/
theorem splitWsAux_two (bs ss : List Char) (hb : bs ≠ []) (hs : ss ≠ [])
    (hbw : ∀ c ∈ bs, c.isWhitespace = false) (hsw : ∀ c ∈ ss, c.isWhitespace = false) :
    splitWsAux (bs ++ ' ' :: ss) [] = [bs, ss] := by
  rw [splitWsAux_append_nows bs (' ' :: ss) [] hbw, List.append_nil]
  simp only [splitWsAux]
  rw [if_pos (show (' ').isWhitespace = true from rfl)]
  rw [if_neg (by simpa using hb)]
  rw [List.reverse_reverse]
  rw [splitWsAux_all_nows ss [] hsw (Or.inr hs)]
  rw [List.reverse_nil, List.nil_append]

/-- A dropWhile over a list on which the predicate always fails is the
identity. -/
theorem dropWhile_false_of_all {p : Char → Bool} {l : List Char}
    (h : ∀ c ∈ l, p c = false) : l.dropWhile p = l := by
  cases l with
  | nil => rfl
  | cons c cs =>
    rw [List.dropWhile_cons, if_neg (by simp [h c (by simp)])]

/-- Stripping a whitespace-free list is the identity. -/
theorem stripChars_nows (cs : List Char) (h : ∀ c ∈ cs, c.isWhitespace = false) :
    stripChars cs = cs := by
  unfold stripChars
  rw [dropWhile_false_of_all h,
    dropWhile_false_of_all (fun c hc => h c (List.mem_reverse.mp hc)),
    List.reverse_reverse]

/-- Python strip of a whitespace-free string is the identity. -/
theorem pyStrip_eq_self (t : String) (hws : ∀ c ∈ t.data, c.isWhitespace = false) :
    pyStrip t = t := by
  unfold pyStrip
  rw [stripChars_nows t.data hws]

/-- Stripping two whitespace-free words joined by one inner space is
the identity. -/
theorem stripChars_two (bs ss : List Char) (hb : bs ≠ []) (hs : ss ≠ [])
    (hbw : ∀ c ∈ bs, c.isWhitespace = false) (hsw : ∀ c ∈ ss, c.isWhitespace = false) :
    stripChars (bs ++ ' ' :: ss) = bs ++ ' ' :: ss := by
  unfold stripChars
  have h1 : (bs ++ ' ' :: ss).dropWhile Char.isWhitespace = bs ++ ' ' :: ss := by
    cases bs with
    | nil => exact absurd rfl hb
    | cons b bs' =>
      rw [List.cons_append, List.dropWhile_cons,
        if_neg (by simp [hbw b (by simp)])]
  rw [h1]
  have hrev : (bs ++ ' ' :: ss).reverse = ss.reverse ++ ' ' :: bs.reverse := by
    rw [List.reverse_append, List.reverse_cons, List.append_assoc, List.singleton_append]
  have h2 : (bs ++ ' ' :: ss).reverse.dropWhile Char.isWhitespace = (bs ++ ' ' :: ss).reverse := by
    rw [hrev]
    cases hsr : ss.reverse with
    | nil => exact absurd (List.reverse_eq_nil_iff.mp hsr) hs
    | cons s0 sr =>
      have hs0 : s0 ∈ ss := by
        rw [← List.mem_reverse, hsr]; simp
      rw [List.cons_append, List.dropWhile_cons, if_neg (by simp [hsw s0 hs0])]
  rw [h2, List.reverse_reverse]

end TokenLemmas

section SplitLemmas

open PyStr

/-- Splitting on the pipe character leaves a pipe-free list whole. -/
theorem splitOnPipeC_noPipe (cs : List Char) : ∀ acc : List Char,
    (∀ c ∈ cs, c ≠ '|') → Normalizer.splitOnPipeC cs acc = [acc.reverse ++ cs] := by
  induction cs with
  | nil => intro acc h; simp [Normalizer.splitOnPipeC]
  | cons c cs ih =>
    intro acc h
    simp only [Normalizer.splitOnPipeC]
    rw [if_neg (h c (by simp))]
    rw [ih (c :: acc) (fun d hd => h d (List.mem_cons_of_mem c hd))]
    rw [List.reverse_cons, List.append_assoc, List.singleton_append]

/-- split_pipeline of a non-empty pipe-free token with no surrounding
whitespace is that token alone. -/
theorem split_pipeline_single (t : String) (hne : t.data ≠ [])
    (hws : ∀ c ∈ t.data, c.isWhitespace = false)
    (hpipe : ∀ c ∈ t.data, c ≠ '|') :
    Normalizer.split_pipeline t = [t] := by
  unfold Normalizer.split_pipeline
  rw [splitOnPipeC_noPipe t.data [] hpipe]
  rw [List.reverse_nil, List.nil_append, List.map_cons, List.map_nil,
    stripChars_nows t.data hws]
  show List.filter (fun x => decide (x ≠ "")) [t] = [t]
  rw [List.filter_cons_of_pos (by
    simp only [ne_eq, decide_eq_true_eq]
    intro h
    exact hne (by rw [h])), List.filter_nil]

/-- split_pipeline of two tokens joined by one inner space, all
pipe-free, is the joined string alone. -/
theorem split_pipeline_two (b s : String) (hb : b.data ≠ []) (hs : s.data ≠ [])
    (hbw : ∀ c ∈ b.data, c.isWhitespace = false) (hsw : ∀ c ∈ s.data, c.isWhitespace = false)
    (hbp : ∀ c ∈ b.data, c ≠ '|') (hsp : ∀ c ∈ s.data, c ≠ '|') :
    Normalizer.split_pipeline (b ++ " " ++ s) = [b ++ " " ++ s] := by
  have hdata : (b ++ " " ++ s).data = b.data ++ ' ' :: s.data := by
    rw [String.data_append, String.data_append, List.append_assoc]
    rfl
  unfold Normalizer.split_pipeline
  rw [hdata, splitOnPipeC_noPipe _ []
    (by
      intro c hc
      rcases List.mem_append.mp hc with hc | hc
      · exact hbp c hc
      · rcases List.mem_cons.mp hc with rfl | hc
        · decide
        · exact hsp c hc)]
  rw [List.reverse_nil, List.nil_append, List.map_cons, List.map_nil,
    stripChars_two b.data s.data hb hs hbw hsw, ← hdata]
  show List.filter (fun x => decide (x ≠ "")) [b ++ " " ++ s] = [b ++ " " ++ s]
  rw [List.filter_cons_of_pos (by
    simp only [ne_eq, decide_eq_true_eq]
    intro h
    have hd : b.data ++ ' ' :: s.data = ([] : List Char) := by
      rw [← hdata, h]
    simp at hd), List.filter_nil]

/-- A list without ampersand, semicolon and pipe characters has no
separator match anywhere. -/
theorem matchSep_none (cs : List Char)
    (h : ∀ c ∈ cs, c ≠ '&' ∧ c ≠ ';' ∧ c ≠ '|') :
    Normalizer.matchSep cs = none := by
  unfold Normalizer.matchSep
  have hsub : ∀ c ∈ cs.dropWhile Char.isWhitespace, c ∈ cs := by
    intro c hc
    exact (List.dropWhile_sublist Char.isWhitespace).mem hc
  split
  next heq =>
    have : '&' ∈ cs := hsub _ (by rw [heq]; simp)
    exact absurd rfl (h _ this).1
  next heq =>
    have : '|' ∈ cs := hsub _ (by rw [heq]; simp)
    exact absurd rfl (h _ this).2.2
  next heq =>
    have : ';' ∈ cs := hsub _ (by rw [heq]; simp)
    exact absurd rfl (h _ this).2.1
  next => rfl

/-- The logical-operator scanner leaves an operator-free list whole,
with any fuel. -/
theorem splitLogGo_noOps (fuel : Nat) : ∀ (cs acc : List Char),
    (∀ c ∈ cs, c ≠ '&' ∧ c ≠ ';' ∧ c ≠ '|') →
    Normalizer.splitLogGo fuel cs acc = [acc.reverse ++ cs] := by
  induction fuel with
  | zero =>
    intro cs acc h
    cases cs with
    | nil => simp [Normalizer.splitLogGo]
    | cons c cs => simp [Normalizer.splitLogGo]
  | succ fuel ih =>
    intro cs acc h
    cases cs with
    | nil => simp [Normalizer.splitLogGo]
    | cons c cs =>
      show (match Normalizer.matchSep (c :: cs) with
        | some rest => acc.reverse :: Normalizer.splitLogGo fuel rest []
        | none => Normalizer.splitLogGo fuel cs (c :: acc)) = [acc.reverse ++ c :: cs]
      rw [matchSep_none (c :: cs) h]
      rw [ih cs (c :: acc) (fun d hd => h d (List.mem_cons_of_mem c hd))]
      rw [List.reverse_cons, List.append_assoc, List.singleton_append]

/-- split_logicial of an operator-free string is that string alone. -/
theorem split_logicial_single (t : String)
    (hops : ∀ c ∈ t.data, c ≠ '&' ∧ c ≠ ';' ∧ c ≠ '|') :
    Normalizer.split_logicial t = [t] := by
  unfold Normalizer.split_logicial
  rw [splitLogGo_noOps t.data.length t.data [] hops]
  rw [List.reverse_nil, List.nil_append, List.map_cons, List.map_nil]

/-- A pipe join of at least two pieces contains the pipe character. -/
theorem mem_pipe_joinSep (p q : String) (rest : List String) :
    '|' ∈ (joinSep " | " (p :: q :: rest)).data := by
  show '|' ∈ ((p ++ " | ") ++ joinSep " | " (q :: rest)).data
  rw [String.data_append, String.data_append]
  exact List.mem_append.mpr (Or.inl (List.mem_append.mpr (Or.inr (by decide))))

/-- A logical join of at least two pieces contains the semicolon. -/
theorem mem_semi_joinSep (p q : String) (rest : List String) :
    ';' ∈ (joinSep " ; " (p :: q :: rest)).data := by
  show ';' ∈ ((p ++ " ; ") ++ joinSep " ; " (q :: rest)).data
  rw [String.data_append, String.data_append]
  exact List.mem_append.mpr (Or.inl (List.mem_append.mpr (Or.inr (by decide))))

/-- The keep-args set avoids the blacklist. -/
theorem keep_not_blacklist (s : String) (h : s ∈ Normalizer.KEEP_ARGS) :
    s ∉ Normalizer.BLACKLIST := by
  fin_cases h <;> decide

/-- The keep-args set avoids the strip-to-base set. -/
theorem keep_not_strip (s : String) (h : s ∈ Normalizer.KEEP_ARGS) :
    s ∉ Normalizer.STRIP_TO_BASE := by
  fin_cases h <;> decide

end SplitLemmas

section RenormalizeLemmas

open PyStr

/-- Renormalizing a single whitespace-free, operator-free token outside
the blacklist returns it unchanged: it is its own base, and every
branch that applies returns the base alone. -/
theorem normalize_single_token (t : String) (hne : t.data ≠ [])
    (hws : ∀ c ∈ t.data, c.isWhitespace = false)
    (hops : ∀ c ∈ t.data, c ≠ '&' ∧ c ≠ ';' ∧ c ≠ '|')
    (hbl : t ∉ Normalizer.BLACKLIST) :
    Normalizer.normalize t = some t := by
  have hstrip : pyStrip t = t := pyStrip_eq_self t hws
  have htne : t ≠ "" := fun h => hne (by rw [h])
  unfold Normalizer.normalize
  simp only [Normalizer.normalizeF]
  rw [hstrip, if_neg htne, pySplit_single t hne hws]
  dsimp only
  rw [if_neg (by simp)]
  dsimp only
  rw [if_neg hbl]
  by_cases hst : t ∈ Normalizer.STRIP_TO_BASE
  · rw [if_pos hst]
  · rw [if_neg hst, if_neg (by simp)]
    rw [split_pipeline_single t hne hws (fun c hc => (hops c hc).2.2)]
    rw [if_neg (by simp)]
    rw [split_logicial_single t hops]
    rw [if_neg (by simp)]

/-- Renormalizing a keep-args base other than sudo followed by one
non-flag second token returns the pair unchanged: the keep-args branch
fires again before any splitting. -/
theorem normalize_two_token (b s : String) (hbne : b.data ≠ []) (hsne : s.data ≠ [])
    (hbw : ∀ c ∈ b.data, c.isWhitespace = false) (hsw : ∀ c ∈ s.data, c.isWhitespace = false)
    (hbl : b ∉ Normalizer.BLACKLIST) (hst : b ∉ Normalizer.STRIP_TO_BASE)
    (hkeep : b ∈ Normalizer.KEEP_ARGS) (hbsudo : b ≠ "sudo")
    (hflag : Normalizer.isFlagOrHeredoc s = false) :
    Normalizer.normalize (b ++ " " ++ s) = some (b ++ " " ++ s) := by
  have hdata : (b ++ " " ++ s).data = b.data ++ ' ' :: s.data := by
    rw [String.data_append, String.data_append, List.append_assoc]
    rfl
  have htne : (b ++ " " ++ s) ≠ "" := by
    intro h
    have hd : b.data ++ ' ' :: s.data = ([] : List Char) := by rw [← hdata, h]
    simp at hd
  have hstrip : pyStrip (b ++ " " ++ s) = b ++ " " ++ s := by
    unfold pyStrip
    rw [hdata, stripChars_two b.data s.data hbne hsne hbw hsw, ← hdata]
  have hsplit : pySplit (b ++ " " ++ s) = [b, s] := by
    unfold pySplit
    rw [hdata, splitWsAux_two b.data s.data hbne hsne hbw hsw]
    rfl
  unfold Normalizer.normalize
  simp only [Normalizer.normalizeF]
  rw [hstrip, if_neg htne, hsplit]
  dsimp only
  rw [if_neg (by simp [hbsudo])]
  dsimp only
  rw [if_neg hbl, if_neg hst, if_pos ⟨hkeep, by simp⟩]
  rw [if_neg (by simp [hflag])]

end RenormalizeLemmas

section IdempotenceLemmas

open PyStr

/-- The effective base is one of the original tokens. -/
theorem base_mem_tokens {tok0 base : String} {rest0 args : List String}
    (heq : (if tok0 = "sudo" ∧ rest0 ≠ [] then rest0 else tok0 :: rest0) = base :: args) :
    base ∈ tok0 :: rest0 := by
  split at heq
  · exact List.mem_cons_of_mem _ (by rw [heq]; simp)
  · injection heq with h1 h2
    rw [← h1]
    simp

/-- Every post-shift argument is one of the original tokens. -/
theorem arg_mem_tokens {tok0 base a : String} {rest0 args : List String}
    (heq : (if tok0 = "sudo" ∧ rest0 ≠ [] then rest0 else tok0 :: rest0) = base :: args)
    (ha : a ∈ args) : a ∈ tok0 :: rest0 := by
  split at heq
  · exact List.mem_cons_of_mem _ (by rw [heq]; exact List.mem_cons_of_mem _ ha)
  · injection heq with h1 h2
    exact List.mem_cons_of_mem _ (by rw [h2]; exact ha)

/-- A sudo-headed keep-args result starts with the five characters of
sudo and a space. -/
theorem sudo_head_take (s : String) :
    ("sudo" ++ " " ++ s).data.take 5 = ("sudo " : String).data := by
  have hd : ("sudo" ++ " " ++ s).data = ("sudo " : String).data ++ s.data := by
    rw [String.data_append, String.data_append]
    rfl
  rw [hd, List.take_left' (by rfl)]

/-- Idempotence core: a normalize output that is non-empty, free of
ampersand, semicolon and pipe characters, and not sudo-headed
renormalizes to itself unchanged.  The induction is on the recursion
fuel; a single surviving segment of a join defers to the inductive
hypothesis, a multi-piece join is ruled out because its separator
character would occur in the output, and the sudo condition rules out
the one keep-args output whose renormalization would shift. -/
theorem normalizeF_idem (fuel : Nat) : ∀ (x t : String),
    Normalizer.normalizeF fuel x = some t → t ≠ "" →
    (∀ c ∈ t.data, c ≠ '&' ∧ c ≠ ';' ∧ c ≠ '|') →
    t.data.take 5 ≠ ("sudo " : String).data →
    Normalizer.normalize t = some t := by
  induction fuel with
  | zero => intro x t hx _ _ _; simp [Normalizer.normalizeF] at hx
  | succ fuel ih =>
    intro x t hx hne hops hsudo
    simp only [Normalizer.normalizeF] at hx
    split at hx
    · exact absurd hx (by simp)
    next hstrip =>
      split at hx
      · exact absurd hx (by simp)
      next tok0 rest0 hts =>
        split at hx
        · exact absurd hx (by simp)
        next base args hshift =>
          have hbmem : base ∈ pySplit (pyStrip x) := by
            rw [hts]; exact base_mem_tokens hshift
          have hbprops := pySplit_token_props _ _ hbmem
          split at hx
          · exact absurd hx (by simp)
          next hbl =>
            split at hx
            next hst =>
              injection hx with hbt
              subst hbt
              exact normalize_single_token base hbprops.1 hbprops.2 hops hbl
            next hst =>
              split at hx
              next hkeep =>
                cases args with
                | nil =>
                  dsimp only at hx
                  injection hx with hbt
                  subst hbt
                  exact normalize_single_token base hbprops.1 hbprops.2 hops hbl
                | cons second tl =>
                  dsimp only at hx
                  split at hx
                  next hflag =>
                    injection hx with hbt
                    subst hbt
                    exact normalize_single_token base hbprops.1 hbprops.2 hops hbl
                  next hflag =>
                    injection hx with hbt
                    have hsmem : second ∈ pySplit (pyStrip x) := by
                      rw [hts]
                      exact arg_mem_tokens hshift (by simp)
                    have hsprops := pySplit_token_props _ _ hsmem
                    by_cases hbs : base = "sudo"
                    · exfalso
                      apply hsudo
                      rw [← hbt, hbs]
                      exact sudo_head_take second
                    · subst hbt
                      exact normalize_two_token base second hbprops.1 hsprops.1
                        hbprops.2 hsprops.2 hbl hst hkeep.1 hbs
                        (by simpa using hflag)
              next hkeep =>
                split at hx
                next hpipe =>
                  injection hx with hbt
                  cases hP : List.filter (fun x => decide (x ≠ ""))
                      (List.filterMap id (List.map (Normalizer.normalizeF fuel)
                        (Normalizer.split_pipeline (pyStrip x)))) with
                  | nil =>
                    rw [hP] at hbt
                    exact absurd hbt.symm hne
                  | cons p P' =>
                    cases P' with
                    | nil =>
                      rw [hP] at hbt
                      have hpt : p = t := hbt
                      subst hpt
                      have hpmem : p ∈ List.filter (fun x => decide (x ≠ ""))
                          (List.filterMap id (List.map (Normalizer.normalizeF fuel)
                            (Normalizer.split_pipeline (pyStrip x)))) := by
                        rw [hP]; simp
                      obtain ⟨hmem2, -⟩ := List.mem_filter.mp hpmem
                      obtain ⟨o, ho, hop⟩ := List.mem_filterMap.mp hmem2
                      obtain ⟨seg, hseg, hfo⟩ := List.mem_map.mp ho
                      exact ih seg p (by rw [hfo]; exact hop) hne hops hsudo
                    | cons q rest =>
                      rw [hP] at hbt
                      exact absurd rfl
                        (hops '|' (hbt ▸ mem_pipe_joinSep p q rest)).2.2
                next hpipe =>
                  split at hx
                  next hlog =>
                    injection hx with hbt
                    cases hP : List.filter (fun x => decide (x ≠ ""))
                        (List.filterMap id (List.map (Normalizer.normalizeF fuel)
                          (Normalizer.split_logicial (pyStrip x)))) with
                    | nil =>
                      rw [hP] at hbt
                      exact absurd hbt.symm hne
                    | cons p P' =>
                      cases P' with
                      | nil =>
                        rw [hP] at hbt
                        have hpt : p = t := hbt
                        subst hpt
                        have hpmem : p ∈ List.filter (fun x => decide (x ≠ ""))
                            (List.filterMap id (List.map (Normalizer.normalizeF fuel)
                              (Normalizer.split_logicial (pyStrip x)))) := by
                          rw [hP]; simp
                        obtain ⟨hmem2, -⟩ := List.mem_filter.mp hpmem
                        obtain ⟨o, ho, hop⟩ := List.mem_filterMap.mp hmem2
                        obtain ⟨seg, hseg, hfo⟩ := List.mem_map.mp ho
                        exact ih seg p (by rw [hfo]; exact hop) hne hops hsudo
                      | cons q rest =>
                        rw [hP] at hbt
                        exact absurd rfl
                          (hops ';' (hbt ▸ mem_semi_joinSep p q rest)).2.1
                  next hlog =>
                    injection hx with hbt
                    subst hbt
                    exact normalize_single_token base hbprops.1 hbprops.2 hops hbl

end IdempotenceLemmas

/-- C5 counterexample: normalize is not idempotent: the non-excluded
output of the doubled sudo command renormalizes to something else,
because the keep-args branch can emit sudo itself as the base, which
the second pass unwraps. -/
theorem c5_counterexample :
    Normalizer.normalize "sudo sudo update" = some "sudo update" ∧
    Normalizer.normalize "sudo update" = some "update" ∧
    Normalizer.normalize "| cat a | foo" = some "cat | foo" ∧
    Normalizer.normalize "cat | foo" = some "cat" := by decide

/-- C5 amended: idempotence holds for every output that is non-empty,
contains no ampersand, semicolon or pipe characters, and does not start
with the word sudo: for all such outputs t of normalize,
normalize t = some t.  (The excluded classes genuinely break
idempotence, as the counterexamples show.) -/
theorem c5_amended (x t : String) (hx : Normalizer.normalize x = some t) (hne : t ≠ "")
    (hops : ∀ c ∈ t.data, c ≠ '&' ∧ c ≠ ';' ∧ c ≠ '|')
    (hsudo : t.data.take 5 ≠ ("sudo " : String).data) :
    Normalizer.normalize t = some t :=
  normalizeF_idem (x.data.length + 1) x t hx hne hops hsudo

/-- C5 witness: the amended idempotence applied to the spec's own
example. -/
theorem c5_witness : Normalizer.normalize "cd" = some "cd" :=
  c5_amended "cd /var/log" "cd" (by decide) (by decide) (by decide) (by decide)
